import Mathlib

/-!
Shallow embedding of the badgerhold secondary-indexing engine (src/index.go)
and proofs about it. Byte strings become `List Nat`, the badger transaction
becomes an association list threaded through the operations, and the external
collaborators (codec, index functions, criteria matcher, store) become
function parameters or explicit list-shaped state. Each claim about the
engine is settled by a theorem in the second half of the file.
-/

namespace Badgerhold

/-- A Go `[]byte` value, modelled as a list of naturals. -/
abbrev ByteStr := List Nat

/-- Go's `bytes.Compare`: lexicographic three-way comparison of byte strings. -/
def bytesCompare : ByteStr → ByteStr → Ordering
  | [], [] => .eq
  | [], _ :: _ => .lt
  | _ :: _, [] => .gt
  | a :: as, b :: bs =>
    if a < b then .lt
    else if b < a then .gt
    else bytesCompare as bs

/-- `bytesCompare x y = .lt`, the strict lexicographic order on byte strings. -/
def lexLt (x y : ByteStr) : Prop := bytesCompare x y = .lt

instance (x y : ByteStr) : Decidable (lexLt x y) := by
  unfold lexLt; infer_instance

/-- A keyList (src/index.go:108): a slice of unique, sorted byte-string keys. -/
abbrev keyList := List ByteStr

/-- The keyList well-formedness invariant: strictly sorted in lexicographic
byte order (which also rules out duplicates). -/
def keyListSorted (v : keyList) : Prop := List.Pairwise lexLt v

instance (v : keyList) : Decidable (keyListSorted v) := by
  unfold keyListSorted; infer_instance

/-- `sort.Search(len v, fun i => bytes.Compare(v[i], key) >= 0)` as used by
`keyList.add`, `keyList.remove` and `keyList.in` (src/index.go:111,126,138):
for the monotone predicates those call sites produce (the receiver being
sorted), Go's binary search returns the least index whose element is not
below `key`, and `len v` when there is none, which this computes directly. -/
def keySearch : keyList → ByteStr → Nat
  | [], _ => 0
  | x :: xs, key => if bytesCompare x key = .lt then keySearch xs key + 1 else 0

/-- `keyList.add` (src/index.go:110-123): sorted insert, no-op when present. -/
def keyList.add (v : keyList) (key : ByteStr) : keyList :=
  let i := keySearch v key
  if i < v.length ∧ v.getD i [] = key then
    -- already added
    v
  else
    v.take i ++ key :: v.drop i

/-- `keyList.remove` (src/index.go:125-135): drops the element at the search
index whenever that index is in range (the source has no equality check). -/
def keyList.remove (v : keyList) (key : ByteStr) : keyList :=
  let i := keySearch v key
  if i < v.length then v.take i ++ v.drop (i + 1) else v

/-- `keyList.in` (src/index.go:137-143): sorted membership test. -/
def keyList.inKey (v : keyList) (key : ByteStr) : Bool :=
  let i := keySearch v key
  decide (i < v.length ∧ v.getD i [] = key)

/-- One keyList mutation, for stating the invariant over operation scripts. -/
inductive KOp
  | add (k : ByteStr)
  | remove (k : ByteStr)

/-- Applies a script of add/remove operations to a keyList, left to right. -/
def applyOps : List KOp → keyList → keyList
  | [], v => v
  | KOp.add k :: ops, v => applyOps ops (keyList.add v k)
  | KOp.remove k :: ops, v => applyOps ops (keyList.remove v k)

/-- `[]byte(s)` for a Go string `s`, via the character codes. -/
def strBytes (s : String) : ByteStr := s.data.map Char.toNat

/-- The reserved index namespace token (src/index.go:18). -/
def indexPrefixStr : String := "_bhIndex"

/-- `indexKeyPrefix` (src/index.go:102-105): the badger key prefix under
which index entries of the given (typeName, indexName) pair are stored. -/
def indexKeyPrefix (typeName indexName : String) : ByteStr :=
  strBytes (indexPrefixStr ++ ":" ++ typeName ++ ":" ++ indexName)

/-- Modelled from the spec: the type partition prefix, "a deterministic
byte-string prefix derived from a type name, under which all records of that
type are stored" (spec §3). The function `typePrefix` this embeds lives
outside src/index.go; the theorems below depend only on it being a
deterministic function of the type name. -/
def typePfx (typeName : String) : ByteStr :=
  strBytes ("bh_" ++ typeName)

/-- Errors crossing the engine's boundary: badger's ErrKeyNotFound, other
store errors, and codec (serialize/deserialize) failures, tagged by a code. -/
inductive Err
  | keyNotFound
  | storeErr (n : Nat)
  | codecErr (n : Nat)
deriving DecidableEq

/-- The badger transaction as the engine observes it: an association list
from keys to stored values. Within a transaction Get/Set/Delete behave like
map operations; this model's Get fails only with ErrKeyNotFound (other store
errors would propagate through the same `err != nil` branches). -/
abbrev Txn := List (ByteStr × ByteStr)

def txnGet (tx : Txn) (k : ByteStr) : Option ByteStr :=
  (tx.find? (fun kv => kv.1 == k)).map (fun kv => kv.2)

def txnSet (tx : Txn) (k v : ByteStr) : Txn :=
  tx.filter (fun kv => !(kv.1 == k)) ++ [(k, v)]

def txnDelete (tx : Txn) (k : ByteStr) : Txn :=
  tx.filter (fun kv => !(kv.1 == k))

/-- The index-entry lookup inside indexUpdate (src/index.go:70-82):
ErrKeyNotFound is treated as the empty keyList, an existing value is decoded
with the codec, and a decode failure is an error. -/
def lookupKeyList (dec : ByteStr → Except Err keyList) (tx : Txn) (k : ByteStr) :
    Except Err keyList :=
  match txnGet tx k with
  | none => .ok []
  | some bs => dec bs

/-- `indexUpdate` (src/index.go:55-100), with the external collaborators as
parameters: `index` is the per-index Index function returning Go's
`([]byte, error)` pair, `dec`/`enc` are the value codec. The result pairs
the transaction state left behind with the returned error, mirroring Go's
mutable `*badger.Txn` plus `error` return. The first arm mirrors
`if indexKey == nil { return nil }`, which precedes the `err != nil` check,
so an error accompanying a nil index key is dropped. -/
def indexUpdate (typeName indexName : String)
    (index : String → α → Option ByteStr × Option Err)
    (dec : ByteStr → Except Err keyList) (enc : keyList → Except Err ByteStr)
    (tx : Txn) (key : ByteStr) (value : α) (del : Bool) : Txn × Option Err :=
  match index indexName value with
  | (none, _) => (tx, none)
  | (some _, some e) => (tx, some e)
  | (some ik, none) =>
    let indexKey := indexKeyPrefix typeName indexName ++ ik
    match lookupKeyList dec tx indexKey with
    | .error e => (tx, some e)
    | .ok kl =>
      let indexValue := if del then keyList.remove kl key else keyList.add kl key
      if indexValue.isEmpty then (txnDelete tx indexKey, none)
      else
        match enc indexValue with
        | .error e => (tx, some e)
        | .ok iv => (txnSet tx indexKey iv, none)

/-- The record-type adapter: `Storer.Type()` plus `Storer.Indexes()`; the Go
map of index functions is modelled as a list of name/function pairs in
iteration order. -/
structure Storer (α : Type) where
  typeName : String
  indexes : List (String × (String → α → Option ByteStr × Option Err))

/-- The loop shared by `indexAdd` (src/index.go:27-37) and `indexDelete`
(src/index.go:41-52): one indexUpdate per declared index, stopping at the
first error; updates already applied stay in the transaction. -/
def indexLoop {α : Type} (typeName : String)
    (dec : ByteStr → Except Err keyList) (enc : keyList → Except Err ByteStr)
    (key : ByteStr) (data : α) (del : Bool) :
    List (String × (String → α → Option ByteStr × Option Err)) → Txn → Txn × Option Err
  | [], tx => (tx, none)
  | (name, ix) :: rest, tx =>
    match indexUpdate typeName name ix dec enc tx key data del with
    | (tx2, some e) => (tx2, some e)
    | (tx2, none) => indexLoop typeName dec enc key data del rest tx2

/-- `indexAdd` (src/index.go:27-37). -/
def indexAdd (storer : Storer α)
    (dec : ByteStr → Except Err keyList) (enc : keyList → Except Err ByteStr)
    (tx : Txn) (key : ByteStr) (data : α) : Txn × Option Err :=
  indexLoop storer.typeName dec enc key data false storer.indexes tx

/-- `indexDelete` (src/index.go:41-52). -/
def indexDelete (storer : Storer α)
    (dec : ByteStr → Except Err keyList) (enc : keyList → Except Err ByteStr)
    (tx : Txn) (key : ByteStr) (originalData : α) : Txn × Option Err :=
  indexLoop storer.typeName dec enc key originalData true storer.indexes tx

/-- The badger prefix iterator as `indexExists` and the nextKeys closures
observe it: the ascending list of entries at or after the current position.
`Seek` moves to the first key not below the target (badger seeks over a
sorted keyspace). -/
def seek (entries : List (ByteStr × ByteStr)) (target : ByteStr) :
    List (ByteStr × ByteStr) :=
  entries.dropWhile (fun kv => bytesCompare kv.1 target = .lt)

/-- `ValidForPrefix`: the iterator is positioned on an entry whose key
extends the prefix. -/
def validForPfx (pos : List (ByteStr × ByteStr)) (pfx : ByteStr) : Bool :=
  match pos with
  | [] => false
  | (k, _) :: _ => pfx.isPrefixOf k

/-- `indexExists` (src/index.go:145-164), over a store modelled as the sorted
entry list the badger iterator walks. -/
def indexExists (store : List (ByteStr × ByteStr)) (typeName indexName : String) : Bool :=
  let iPfx := indexKeyPrefix typeName indexName
  let tPfx := typePfx typeName
  if !(validForPfx (seek store tPfx) tPfx) then
    -- store is empty for this data type so the index could possibly exist
    true
  else
    validForPfx (seek store iPfx) iPfx

/-- Modelled from the spec: one field criterion; all the strategy selection
reads off a criterion is whether it "requires invoking an arbitrary matching
function" (spec §4.4), the predicate `hasMatchFunc` applies, which lives
outside src/index.go. -/
structure Crit where
  usesMatchFunc : Bool

/-- Modelled from the spec: true when some criterion in the list requires
the arbitrary matching function. -/
def hasMatchFunc (cs : List Crit) : Bool := cs.any (fun c => c.usesMatchFunc)

/-- Modelled from the spec: the sentinel index-field name "meaning use the
primary key order" (spec §3); in the repository the constant `Key` is the
empty string, defined outside src/index.go. -/
def Key : String := ""

/-- The query descriptor fields newIterator consults: the designated index
field, the bad-index flag, and the per-field criteria map (a total function,
a Go map miss reading as the empty list). -/
structure Query where
  index : String
  badIndex : Bool
  fieldCriteria : String → List Crit

/-- The three scan strategies of src/index.go:188-287. -/
inductive Strategy
  | primaryKey
  | fullScan
  | indexedLookup
deriving DecidableEq

/-- The bad-index flag after newIterator's
`query.badIndex = !indexExists(...)` update (src/index.go:181-183), which
runs only for a non-empty index name. -/
def queryBadIndex (store : List (ByteStr × ByteStr)) (typeName : String) (q : Query) : Bool :=
  if q.index ≠ "" then !(indexExists store typeName q.index) else q.badIndex

/-- The strategy selection of `newIterator` (src/index.go:174-287): which of
the three nextKeys producers is installed. -/
def newIteratorStrategy (store : List (ByteStr × ByteStr)) (typeName : String)
    (q : Query) : Strategy :=
  let badIndex := queryBadIndex store typeName q
  let criteria := q.fieldCriteria q.index
  if q.index == Key && !badIndex then .primaryKey
  else if badIndex || hasMatchFunc criteria then .fullScan
  else .indexedLookup

/-- src/index.go:21: size of iterator keys stored in memory before more are
fetched. -/
def iteratorKeyMinCacheSize : Nat := 100

/-- The `nextKeys` closure of the primary-key scan strategy
(src/index.go:191-220). `dv` decodes a stored record, `mc` is
`matchesAllCriteria(criteria, key, true, typeName, val)`. Takes the iterator
position and the keys accumulated so far (`nKeys`), returns the final
position and either the batch or the first error (Go returns `nil, err`, so
an error carries no keys). -/
def nextKeysPrimary (dv : ByteStr → Except Err α) (mc : ByteStr → α → Except Err Bool)
    (pfx : ByteStr) :
    List (ByteStr × ByteStr) → List ByteStr →
      List (ByteStr × ByteStr) × Except Err (List ByteStr)
  | it, acc =>
    if acc.length < iteratorKeyMinCacheSize then
      match it with
      | [] => ([], .ok acc)
      | (k, v) :: rest =>
        if pfx.isPrefixOf k then
          match dv v with
          | .error e => ((k, v) :: rest, .error e)
          | .ok val =>
            match mc k val with
            | .error e => ((k, v) :: rest, .error e)
            | .ok b => nextKeysPrimary dv mc pfx rest (if b then acc ++ [k] else acc)
        else ((k, v) :: rest, .ok acc)
    else (it, .ok acc)

/-- The `nextKeys` closure of the full-type scan strategy
(src/index.go:229-241): every key under the prefix, unfiltered. -/
def nextKeysFull (pfx : ByteStr) :
    List (ByteStr × ByteStr) → List ByteStr →
      List (ByteStr × ByteStr) × Except Err (List ByteStr)
  | it, acc =>
    if acc.length < iteratorKeyMinCacheSize then
      match it with
      | [] => ([], .ok acc)
      | (k, v) :: rest =>
        if pfx.isPrefixOf k then nextKeysFull pfx rest (acc ++ [k])
        else ((k, v) :: rest, .ok acc)
    else (it, .ok acc)

/-- The `nextKeys` closure of the indexed-lookup strategy
(src/index.go:249-284). `mc` is `matchesAllCriteria` applied to the index
key with the prefix stripped; `dec` decodes a stored KeyList. On a match the
entry's whole KeyList is appended at once; the source discards the error
returned by `item.Value`, so a KeyList decode failure skips the entry
silently and iteration continues. -/
def nextKeysIndexed (mc : ByteStr → Except Err Bool) (dec : ByteStr → Except Err keyList)
    (pfx : ByteStr) :
    List (ByteStr × ByteStr) → List ByteStr →
      List (ByteStr × ByteStr) × Except Err (List ByteStr)
  | it, acc =>
    if acc.length < iteratorKeyMinCacheSize then
      match it with
      | [] => ([], .ok acc)
      | (k, v) :: rest =>
        if pfx.isPrefixOf k then
          match mc (k.drop pfx.length) with
          | .error e => ((k, v) :: rest, .error e)
          | .ok b =>
            if b then
              match dec v with
              | .error _ => nextKeysIndexed mc dec pfx rest acc
              | .ok keys => nextKeysIndexed mc dec pfx rest (acc ++ keys)
            else nextKeysIndexed mc dec pfx rest acc
        else ((k, v) :: rest, .ok acc)
    else (it, .ok acc)

/-- The iterator state (src/index.go:166-172): key cache, the state the
installed nextKeys closure advances (the badger iterator position), and the
sticky error. The closure itself and the transaction are passed to
`iterNext` explicitly; newIterator always installs a closure, so the
`i.nextKeys == nil` guard of src/index.go:297 never fires in this model. -/
structure IterSt (σ : Type) where
  keyCache : List ByteStr
  prodSt : σ
  err : Option Err

/-- `iterator.Next` (src/index.go:292-334). `f` is the installed nextKeys
closure; `lookup` performs `tx.Get(key)` followed by `item.Value` (its error
outcome covers both the point-lookup and the value-read failure). Returns
the new state and the `(key, value)` pair, `(none, none)` standing for Go's
`(nil, nil)`. -/
def iterNext (f : σ → σ × Except Err (List ByteStr))
    (lookup : ByteStr → Except Err ByteStr) (s : IterSt σ) :
    IterSt σ × (Option ByteStr × Option ByteStr) :=
  match s.err with
  | some _ => (s, (none, none))
  | none =>
    match s.keyCache with
    | [] =>
      match f s.prodSt with
      | (p2, .error e) => ({ s with prodSt := p2, err := some e }, (none, none))
      | (p2, .ok []) => ({ s with prodSt := p2 }, (none, none))
      | (p2, .ok (k :: ks)) =>
        match lookup k with
        | .error e =>
          ({ s with prodSt := p2, keyCache := ks, err := some e }, (none, none))
        | .ok v => ({ s with prodSt := p2, keyCache := ks }, (some k, some v))
    | k :: ks =>
      match lookup k with
      | .error e => ({ s with keyCache := ks, err := some e }, (none, none))
      | .ok v => ({ s with keyCache := ks }, (some k, some v))

/-- `iterator.Error` (src/index.go:337-339). -/
def iterError (s : IterSt σ) : Option Err := s.err

/-- n successive `Next` calls, keeping the final state. -/
def iterRunN (f : σ → σ × Except Err (List ByteStr))
    (lookup : ByteStr → Except Err ByteStr) : Nat → IterSt σ → IterSt σ
  | 0, s => s
  | n + 1, s => iterRunN f lookup n (iterNext f lookup s).1

/-- A 101-key KeyList, for exercising the indexed-lookup fan-out. -/
def bigKeyList : keyList := (List.range 101).map (fun n => [n])

/-! ## Theorems -/

theorem bytesCompare_eq_iff : ∀ x y : ByteStr, bytesCompare x y = .eq ↔ x = y := by
  intro x
  induction x with
  | nil => intro y; cases y <;> simp [bytesCompare]
  | cons a as ih =>
    intro y
    cases y with
    | nil => simp [bytesCompare]
    | cons b bs =>
      simp only [bytesCompare]
      rcases Nat.lt_trichotomy a b with h | h | h
      · simp [h, Nat.ne_of_lt h]
      · subst h
        simp [Nat.lt_irrefl, ih bs]
      · rw [if_neg (Nat.lt_asymm h), if_pos h]
        simp [Ne.symm (Nat.ne_of_lt h)]

theorem bytesCompare_self (x : ByteStr) : bytesCompare x x = .eq :=
  (bytesCompare_eq_iff x x).mpr rfl

theorem bytesCompare_gt_iff : ∀ x y : ByteStr, bytesCompare x y = .gt ↔ bytesCompare y x = .lt := by
  intro x
  induction x with
  | nil => intro y; cases y <;> simp [bytesCompare]
  | cons a as ih =>
    intro y
    cases y with
    | nil => simp [bytesCompare]
    | cons b bs =>
      simp only [bytesCompare]
      rcases Nat.lt_trichotomy a b with h | h | h
      · rw [if_pos h, if_neg (Nat.lt_asymm h), if_pos h]; simp
      · subst h
        simp [Nat.lt_irrefl, ih bs]
      · rw [if_neg (Nat.lt_asymm h), if_pos h, if_pos h]; simp

theorem lexLt_trans : ∀ x y z : ByteStr, lexLt x y → lexLt y z → lexLt x z := by
  intro x
  induction x with
  | nil =>
    intro y z hxy hyz
    cases z with
    | nil =>
      cases y with
      | nil => exact hxy
      | cons b bs => simp [lexLt, bytesCompare] at hyz
    | cons c cs => simp [lexLt, bytesCompare]
  | cons a as ih =>
    intro y z hxy hyz
    cases y with
    | nil => simp [lexLt, bytesCompare] at hxy
    | cons b bs =>
      cases z with
      | nil => simp [lexLt, bytesCompare] at hyz
      | cons c cs =>
        simp only [lexLt, bytesCompare] at hxy hyz ⊢
        rcases Nat.lt_trichotomy a b with hab | hab | hab
        · rcases Nat.lt_trichotomy b c with hbc | hbc | hbc
          · rw [if_pos (Nat.lt_trans hab hbc)]
          · subst hbc; rw [if_pos hab]
          · rw [if_pos hbc, if_neg (Nat.lt_asymm hbc)] at hyz
            simp at hyz
        · subst hab
          rcases Nat.lt_trichotomy a c with hac | hac | hac
          · rw [if_pos hac]
          · subst hac
            rw [if_neg (Nat.lt_irrefl a)] at hxy hyz ⊢
            rw [if_neg (Nat.lt_irrefl a)] at hxy hyz ⊢
            exact ih bs cs hxy hyz
          · rw [if_neg (Nat.lt_asymm hac), if_pos hac] at hyz
            simp at hyz
        · rw [if_neg (Nat.lt_asymm hab), if_pos hab] at hxy
          simp at hxy

theorem lexLt_irrefl (x : ByteStr) : ¬ lexLt x x := by
  simp [lexLt, bytesCompare_self]

theorem not_lexLt_cases {x y : ByteStr} (h : ¬ lexLt x y) : x = y ∨ lexLt y x := by
  rcases hc : bytesCompare x y with h1 | h1 | h1
  · exact absurd hc h
  · exact Or.inl ((bytesCompare_eq_iff x y).mp hc)
  · exact Or.inr ((bytesCompare_gt_iff x y).mp hc)

theorem keyList.add_cons (x : ByteStr) (xs : keyList) (key : ByteStr) :
    keyList.add (x :: xs) key =
      if bytesCompare x key = .lt then x :: keyList.add xs key
      else if x = key then x :: xs
      else key :: x :: xs := by
  by_cases hlt : bytesCompare x key = .lt
  · rw [if_pos hlt]
    show keyList.add (x :: xs) key = x :: keyList.add xs key
    unfold keyList.add
    simp only [keySearch, if_pos hlt, List.length_cons, List.getD_cons_succ,
      Nat.add_lt_add_iff_right, List.take_succ_cons, List.drop_succ_cons,
      List.cons_append]
    exact (apply_ite (fun l => x :: l) _ _ _).symm
  · rw [if_neg hlt]
    unfold keyList.add
    simp only [keySearch, if_neg hlt, List.length_cons, List.getD_cons_zero,
      List.take_zero, List.drop_zero, Nat.succ_pos, true_and, List.nil_append]

theorem keyList.remove_cons (x : ByteStr) (xs : keyList) (key : ByteStr) :
    keyList.remove (x :: xs) key =
      if bytesCompare x key = .lt then x :: keyList.remove xs key
      else xs := by
  by_cases hlt : bytesCompare x key = .lt
  · rw [if_pos hlt]
    unfold keyList.remove
    simp only [keySearch, if_pos hlt, List.length_cons, Nat.add_lt_add_iff_right,
      List.take_succ_cons, List.drop_succ_cons]
    by_cases hin : keySearch xs key < xs.length
    · rw [if_pos hin, if_pos hin]
      simp
    · rw [if_neg hin, if_neg hin]
  · rw [if_neg hlt]
    unfold keyList.remove
    simp [keySearch, if_neg hlt]

theorem keyList.mem_add {v : keyList} {key y : ByteStr} :
    y ∈ keyList.add v key → y = key ∨ y ∈ v := by
  induction v with
  | nil =>
    intro h
    simp [keyList.add, keySearch] at h
    exact Or.inl h
  | cons x xs ih =>
    rw [keyList.add_cons]
    by_cases hlt : bytesCompare x key = .lt
    · rw [if_pos hlt]
      intro h
      rcases List.mem_cons.mp h with h | h
      · exact Or.inr (List.mem_cons.mpr (Or.inl h))
      · rcases ih h with h | h
        · exact Or.inl h
        · exact Or.inr (List.mem_cons.mpr (Or.inr h))
    · rw [if_neg hlt]
      by_cases heq : x = key
      · rw [if_pos heq]; intro h; exact Or.inr h
      · rw [if_neg heq]
        intro h
        rcases List.mem_cons.mp h with h | h
        · exact Or.inl h
        · exact Or.inr h

theorem keyList.mem_remove {v : keyList} {key y : ByteStr} :
    y ∈ keyList.remove v key → y ∈ v := by
  induction v with
  | nil => intro h; simp [keyList.remove] at h
  | cons x xs ih =>
    rw [keyList.remove_cons]
    by_cases hlt : bytesCompare x key = .lt
    · rw [if_pos hlt]
      intro h
      rcases List.mem_cons.mp h with h | h
      · exact List.mem_cons.mpr (Or.inl h)
      · exact List.mem_cons.mpr (Or.inr (ih h))
    · rw [if_neg hlt]
      intro h
      exact List.mem_cons.mpr (Or.inr h)

theorem keyList.add_sorted {v : keyList} (key : ByteStr) (hs : keyListSorted v) :
    keyListSorted (keyList.add v key) := by
  induction v with
  | nil => simp [keyList.add, keySearch, keyListSorted]
  | cons x xs ih =>
    rw [keyList.add_cons]
    rcases List.pairwise_cons.mp hs with ⟨hx, hxs⟩
    by_cases hlt : bytesCompare x key = .lt
    · rw [if_pos hlt]
      refine List.pairwise_cons.mpr ⟨?_, ih hxs⟩
      intro y hy
      rcases keyList.mem_add hy with rfl | hy
      · exact hlt
      · exact hx y hy
    · rw [if_neg hlt]
      by_cases heq : x = key
      · rw [if_pos heq]; exact hs
      · rw [if_neg heq]
        rcases not_lexLt_cases (show ¬ lexLt x key from hlt) with h | h
        · exact absurd h heq
        · refine List.pairwise_cons.mpr ⟨?_, hs⟩
          intro y hy
          rcases List.mem_cons.mp hy with rfl | hy
          · exact h
          · exact lexLt_trans key x y h (hx y hy)

theorem keyList.remove_sorted {v : keyList} (key : ByteStr) (hs : keyListSorted v) :
    keyListSorted (keyList.remove v key) := by
  induction v with
  | nil => simpa [keyList.remove] using hs
  | cons x xs ih =>
    rw [keyList.remove_cons]
    rcases List.pairwise_cons.mp hs with ⟨hx, hxs⟩
    by_cases hlt : bytesCompare x key = .lt
    · rw [if_pos hlt]
      refine List.pairwise_cons.mpr ⟨?_, ih hxs⟩
      intro y hy
      exact hx y (keyList.mem_remove hy)
    · rw [if_neg hlt]
      exact hxs

theorem keyList.add_mem_id {v : keyList} {key : ByteStr} (hs : keyListSorted v)
    (hmem : key ∈ v) : keyList.add v key = v := by
  induction v with
  | nil => cases hmem
  | cons x xs ih =>
    rw [keyList.add_cons]
    rcases List.pairwise_cons.mp hs with ⟨hx, hxs⟩
    rcases List.mem_cons.mp hmem with rfl | hmem
    · have hno : ¬ (bytesCompare key key = Ordering.lt) := lexLt_irrefl key
      rw [if_neg hno, if_pos rfl]
    · have hlt : bytesCompare x key = .lt := hx key hmem
      rw [if_pos hlt, ih hxs hmem]

theorem keyList.remove_mem_erase {v : keyList} {key : ByteStr} (hs : keyListSorted v)
    (hmem : key ∈ v) : keyList.remove v key = v.erase key := by
  induction v with
  | nil => cases hmem
  | cons x xs ih =>
    rw [keyList.remove_cons]
    rcases List.pairwise_cons.mp hs with ⟨hx, hxs⟩
    rcases List.mem_cons.mp hmem with rfl | hmem
    · have hno : ¬ (bytesCompare key key = Ordering.lt) := lexLt_irrefl key
      rw [if_neg hno, List.erase_cons_head]
    · have hlt : bytesCompare x key = .lt := hx key hmem
      have hne : x ≠ key := by
        intro h; subst h; exact lexLt_irrefl x hlt
      rw [if_pos hlt, ih hxs hmem, List.erase_cons_tail]
      simp [hne]

theorem keyList.remove_all_lt {v : keyList} {key : ByteStr}
    (h : ∀ x ∈ v, lexLt x key) : keyList.remove v key = v := by
  induction v with
  | nil => simp [keyList.remove]
  | cons x xs ih =>
    have hx : bytesCompare x key = Ordering.lt := h x (List.mem_cons_self x xs)
    rw [keyList.remove_cons, if_pos hx,
      ih (fun y hy => h y (List.mem_cons.mpr (Or.inr hy)))]

theorem keyList.remove_length_of_ge {v : keyList} {key : ByteStr}
    (h : ∃ x ∈ v, ¬ lexLt x key) :
    (keyList.remove v key).length + 1 = v.length := by
  induction v with
  | nil => rcases h with ⟨x, hx, _⟩; cases hx
  | cons x xs ih =>
    rw [keyList.remove_cons]
    by_cases hlt : bytesCompare x key = .lt
    · rw [if_pos hlt]
      rcases h with ⟨y, hy, hyk⟩
      rcases List.mem_cons.mp hy with rfl | hy
      · exact absurd hlt hyk
      · simpa using ih ⟨y, hy, hyk⟩
    · rw [if_neg hlt]; simp

theorem keyList.add_ne_nil (v : keyList) (key : ByteStr) :
    keyList.add v key ≠ [] := by
  unfold keyList.add
  by_cases hmem : keySearch v key < v.length ∧ v.getD (keySearch v key) [] = key
  · rw [if_pos hmem]
    intro h
    rw [h] at hmem
    simp at hmem
  · rw [if_neg hmem]
    simp

theorem applyOps_sorted : ∀ (ops : List KOp) (v : keyList),
    keyListSorted v → keyListSorted (applyOps ops v) := by
  intro ops
  induction ops with
  | nil => intro v hv; exact hv
  | cons op ops ih =>
    intro v hv
    cases op with
    | add k => exact ih _ (keyList.add_sorted k hv)
    | remove k => exact ih _ (keyList.remove_sorted k hv)

theorem char_toNat_injective : Function.Injective Char.toNat := by
  intro a b h
  apply Char.ext
  exact UInt32.ext h

theorem string_data_inj {s1 s2 : String} (h : s1.data = s2.data) : s1 = s2 := by
  cases s1; cases s2; simp_all

theorem strBytes_inj {s1 s2 : String} (h : strBytes s1 = strBytes s2) : s1 = s2 := by
  unfold strBytes at h
  exact string_data_inj (List.map_injective_iff.mpr char_toNat_injective h)

theorem colon_split : ∀ (a : List Char) {b : List Char} (c : List Char) {d : List Char},
    (':' : Char) ∉ a → (':' : Char) ∉ c → a ++ ':' :: b = c ++ ':' :: d →
    a = c ∧ b = d := by
  intro a
  induction a with
  | nil =>
    intro b c d _ hc h
    cases c with
    | nil =>
      simp only [List.nil_append] at h
      injection h with _ h2
      exact ⟨rfl, h2⟩
    | cons y ys =>
      simp only [List.nil_append, List.cons_append] at h
      injection h with h1 _
      subst h1
      exact absurd (List.mem_cons_self _ _) hc
  | cons x xs ih =>
    intro b c d hx hc h
    cases c with
    | nil =>
      simp only [List.cons_append, List.nil_append] at h
      injection h with h1 _
      rw [h1] at hx
      exact absurd (List.mem_cons_self _ _) hx
    | cons y ys =>
      simp only [List.cons_append] at h
      injection h with h1 h2
      subst h1
      have hx2 : (':' : Char) ∉ xs := fun hm => hx (List.mem_cons.mpr (Or.inr hm))
      have hc2 : (':' : Char) ∉ ys := fun hm => hc (List.mem_cons.mpr (Or.inr hm))
      rcases ih ys hx2 hc2 h2 with ⟨h3, h4⟩
      exact ⟨by rw [h3], h4⟩

/-- C1 counterexample: removing the absent key [0] from the sorted,
duplicate-free keyList [[1]] is not a no-op — it deletes the element [1]. -/
theorem C1_counterexample :
    keyListSorted [[1]] ∧ ([0] : ByteStr) ∉ ([[1]] : keyList) ∧
      keyList.remove [[1]] [0] ≠ [[1]] :=
  ⟨by decide, by decide, by decide⟩

/-- C1 amended: on a sorted duplicate-free keyList, remove(key) removes
exactly key when key is present, preserving the relative order of the
remaining elements; it is a no-op precisely when every element of the list is
lexicographically below key; when key is absent but some element is not below
it, an element (the first one not below key) is removed instead, so removing
an absent key is not in general a no-op. -/
theorem C1_remove_amended (v : keyList) (key : ByteStr) (hs : keyListSorted v) :
    (key ∈ v → keyList.remove v key = v.erase key) ∧
    ((∀ x ∈ v, lexLt x key) → keyList.remove v key = v) ∧
    ((∃ x ∈ v, ¬ lexLt x key) → (keyList.remove v key).length + 1 = v.length) :=
  ⟨fun hmem => keyList.remove_mem_erase hs hmem,
   fun h => keyList.remove_all_lt h,
   fun h => keyList.remove_length_of_ge h⟩

theorem C1_remove_amended_witness :
    keyList.remove [[0], [2]] [2] = ([[0], [2]] : keyList).erase [2] ∧
      keyList.remove [[0], [2]] [3] = [[0], [2]] :=
  ⟨(C1_remove_amended [[0], [2]] [2] (by decide)).1 (by decide),
   (C1_remove_amended [[0], [2]] [3] (by decide)).2.1 (by decide)⟩

/-- C5: every script of add/remove operations on an initially empty keyList
leaves it sorted in lexicographic byte order and duplicate-free at every
step, and add of an already-present key leaves a sorted list unchanged. -/
theorem C5_keyList_invariants :
    (∀ ops : List KOp, keyListSorted (applyOps ops []) ∧ (applyOps ops []).Nodup) ∧
    (∀ (v : keyList) (key : ByteStr), keyListSorted v → key ∈ v →
      keyList.add v key = v) := by
  constructor
  · intro ops
    have hs : keyListSorted (applyOps ops []) :=
      applyOps_sorted ops [] (by simp [keyListSorted])
    exact ⟨hs, hs.imp (fun h heq => absurd (heq ▸ h) (lexLt_irrefl _))⟩
  · intro v key hs hmem
    exact keyList.add_mem_id hs hmem

theorem C5_keyList_invariants_witness :
    keyListSorted (applyOps [KOp.add [1], KOp.add [0], KOp.remove [1]] []) ∧
      keyList.add [[0], [1]] [1] = [[0], [1]] :=
  ⟨(C5_keyList_invariants.1 [KOp.add [1], KOp.add [0], KOp.remove [1]]).1,
   C5_keyList_invariants.2 [[0], [1]] [1] (by decide) (by decide)⟩

/-- C3 counterexample: two distinct (typeName, indexName) pairs sharing one
index key prefix, since ':' may occur inside a component. -/
theorem C3_counterexample :
    indexKeyPrefix "a:b" "c" = indexKeyPrefix "a" "b:c" ∧
      ("a:b", "c") ≠ (("a", "b:c") : String × String) :=
  ⟨rfl, by decide⟩

/-- C3 amended: indexKeyPrefix is deterministic (a pure function of its two
arguments) and injective across pairs whose type name contains no ':'
delimiter character; pairs whose type name contains ':' can collide with a
different pair. -/
theorem C3_indexKeyPrefix_injective (t1 i1 t2 i2 : String)
    (h1 : (':' : Char) ∉ t1.data) (h2 : (':' : Char) ∉ t2.data)
    (h : indexKeyPrefix t1 i1 = indexKeyPrefix t2 i2) : t1 = t2 ∧ i1 = i2 := by
  have hs : indexPrefixStr ++ ":" ++ t1 ++ ":" ++ i1 =
      indexPrefixStr ++ ":" ++ t2 ++ ":" ++ i2 := strBytes_inj h
  have hd := congrArg String.data hs
  simp only [String.data_append, List.append_assoc] at hd
  have hd2 := List.append_cancel_left (List.append_cancel_left hd)
  simp only [List.singleton_append] at hd2
  rcases colon_split t1.data t2.data h1 h2 hd2 with ⟨hT, hI⟩
  exact ⟨string_data_inj hT, string_data_inj hI⟩

theorem C3_indexKeyPrefix_injective_witness :
    ("T" : String) = "T" ∧ ("f" : String) = "f" :=
  C3_indexKeyPrefix_injective "T" "f" "T" "f" (by decide) (by decide) rfl

/-- C2: two codec errors are silently dropped rather than propagated. First,
`indexUpdate` checks `indexKey == nil` before checking `err`, so an index
function that returns (nil, err) makes indexUpdate return nil and the error
is lost. Second, the indexed-lookup nextKeys closure discards the error
returned by `item.Value`, so a KeyList that fails to decode is skipped
silently and the batch is returned without an error. -/
theorem C2_codec_errors_dropped :
    indexUpdate "T" "f" (fun _ (_ : Nat) => (none, some (Err.codecErr 7)))
        (fun _ => Except.ok []) (fun _ => Except.ok []) [] [1] 0 false = ([], none) ∧
      (nextKeysIndexed (fun _ => Except.ok true) (fun _ => Except.error (Err.codecErr 3))
          [] [([0], [0])] []).2 = Except.ok [] :=
  ⟨rfl, rfl⟩

/-- C6: indexUpdate never stores an empty KeyList. In add mode the list
after add(key) is non-empty and the result is the write-back of its encoding
(never the entry-deletion branch); in delete mode, when remove(key) empties
the list, the index entry key is deleted from the store. -/
theorem C6_no_empty_keyList_stored {α : Type} (typeName indexName : String)
    (index : String → α → Option ByteStr × Option Err)
    (dec : ByteStr → Except Err keyList) (enc : keyList → Except Err ByteStr)
    (tx : Txn) (key ik : ByteStr) (value : α) (kl : keyList)
    (hidx : index indexName value = (some ik, none))
    (hkl : lookupKeyList dec tx (indexKeyPrefix typeName indexName ++ ik) = .ok kl) :
    (keyList.add kl key ≠ [] ∧
      indexUpdate typeName indexName index dec enc tx key value false =
        (match enc (keyList.add kl key) with
         | .error e => (tx, some e)
         | .ok iv => (txnSet tx (indexKeyPrefix typeName indexName ++ ik) iv, none))) ∧
    (keyList.remove kl key = [] →
      indexUpdate typeName indexName index dec enc tx key value true =
        (txnDelete tx (indexKeyPrefix typeName indexName ++ ik), none)) := by
  refine ⟨⟨keyList.add_ne_nil kl key, ?_⟩, fun hrem => ?_⟩
  · unfold indexUpdate
    rw [hidx]
    simp only [hkl]
    have hne : (keyList.add kl key).isEmpty = false := by
      rcases hadd : keyList.add kl key with _ | ⟨a, l⟩
      · exact absurd hadd (keyList.add_ne_nil kl key)
      · rfl
    simp [hne]
  · unfold indexUpdate
    rw [hidx]
    simp only [hkl, hrem]
    rw [if_pos (by simp [hrem])]

theorem C6_no_empty_keyList_stored_witness :
    indexUpdate "T" "f" (fun _ (_ : Nat) => (some [5], none)) (fun _ => Except.ok [])
        (fun _ => Except.ok [7]) [] [9] 0 false =
      (txnSet [] (indexKeyPrefix "T" "f" ++ [5]) [7], none) ∧
    indexUpdate "T" "f" (fun _ (_ : Nat) => (some [5], none)) (fun _ => Except.ok [])
        (fun _ => Except.ok [7]) [] [9] 0 true =
      (txnDelete [] (indexKeyPrefix "T" "f" ++ [5]), none) :=
  ⟨((C6_no_empty_keyList_stored "T" "f" (fun _ (_ : Nat) => (some [5], none))
      (fun _ => Except.ok []) (fun _ => Except.ok [7]) [] [9] [5] 0 [] rfl rfl).1.2).trans rfl,
   (C6_no_empty_keyList_stored "T" "f" (fun _ (_ : Nat) => (some [5], none))
      (fun _ => Except.ok []) (fun _ => Except.ok [7]) [] [9] [5] 0 [] rfl rfl).2 rfl⟩

theorem indexLoop_append_error {α : Type} (typeName : String)
    (dec : ByteStr → Except Err keyList) (enc : keyList → Except Err ByteStr)
    (key : ByteStr) (data : α) (del : Bool)
    (pre rest : List (String × (String → α → Option ByteStr × Option Err)))
    (name : String) (ix : String → α → Option ByteStr × Option Err)
    (tx tx1 tx2 : Txn) (e : Err)
    (hpre : indexLoop typeName dec enc key data del pre tx = (tx1, none))
    (hfail : indexUpdate typeName name ix dec enc tx1 key data del = (tx2, some e)) :
    indexLoop typeName dec enc key data del (pre ++ (name, ix) :: rest) tx =
      (tx2, some e) := by
  induction pre generalizing tx with
  | nil =>
    unfold indexLoop at hpre
    injection hpre with h1 _
    subst h1
    simp only [List.nil_append]
    unfold indexLoop
    rw [hfail]
  | cons hd pre2 ih =>
    obtain ⟨n0, ix0⟩ := hd
    unfold indexLoop at hpre
    rcases h0 : indexUpdate typeName n0 ix0 dec enc tx key data del with ⟨t2, e2⟩
    rw [h0] at hpre
    cases e2 with
    | some e3 => simp at hpre
    | none =>
      simp only [List.cons_append]
      unfold indexLoop
      rw [h0]
      exact ih t2 hpre

/-- C10: indexAdd and indexDelete are not atomic across a type's declared
indexes: the loop stops at the first indexUpdate error and returns it, the
remaining indexes are not processed, and the index entries written for the
indexes already processed in the same call keep their new state (the state
reached before the failing update; the engine performs no rollback). -/
theorem C10_no_rollback {α : Type} (typeName : String)
    (dec : ByteStr → Except Err keyList) (enc : keyList → Except Err ByteStr)
    (key : ByteStr) (data : α)
    (pre rest : List (String × (String → α → Option ByteStr × Option Err)))
    (name : String) (ix : String → α → Option ByteStr × Option Err)
    (tx tx1 tx2 : Txn) (e : Err) :
    (indexLoop typeName dec enc key data false pre tx = (tx1, none) →
      indexUpdate typeName name ix dec enc tx1 key data false = (tx2, some e) →
      indexAdd ⟨typeName, pre ++ (name, ix) :: rest⟩ dec enc tx key data =
        (tx2, some e)) ∧
    (indexLoop typeName dec enc key data true pre tx = (tx1, none) →
      indexUpdate typeName name ix dec enc tx1 key data true = (tx2, some e) →
      indexDelete ⟨typeName, pre ++ (name, ix) :: rest⟩ dec enc tx key data =
        (tx2, some e)) :=
  ⟨fun hpre hfail => indexLoop_append_error typeName dec enc key data false pre rest
      name ix tx tx1 tx2 e hpre hfail,
   fun hpre hfail => indexLoop_append_error typeName dec enc key data true pre rest
      name ix tx tx1 tx2 e hpre hfail⟩

theorem C10_no_rollback_witness :
    indexAdd ⟨"T", [("a", fun _ _ => (some [1], none)),
                    ("b", fun _ _ => (some [2], some (Err.codecErr 5))),
                    ("z", fun _ _ => (some [3], none))]⟩
        (fun _ => Except.ok []) (fun _ => Except.ok [0]) [] [9] (0 : Nat) =
      (txnSet [] (indexKeyPrefix "T" "a" ++ [1]) [0], some (Err.codecErr 5)) :=
  (C10_no_rollback "T" (fun _ => Except.ok []) (fun _ => Except.ok [0]) [9] (0 : Nat)
      [("a", fun _ _ => (some [1], none))] [("z", fun _ _ => (some [3], none))]
      "b" (fun _ _ => (some [2], some (Err.codecErr 5)))
      [] (txnSet [] (indexKeyPrefix "T" "a" ++ [1]) [0])
      (txnSet [] (indexKeyPrefix "T" "a" ++ [1]) [0]) (Err.codecErr 5)).1 rfl rfl

/-- C8: the iterator's error is sticky: once err is set, Next leaves the
state untouched and returns (nil, nil) on every later call, and Error()
answers that same error each time; and an error from the batch producer or
from the key lookup is recorded into err with Next returning (nil, nil). -/
theorem C8_sticky_error {σ : Type} (f : σ → σ × Except Err (List ByteStr))
    (lookup : ByteStr → Except Err ByteStr) (s : IterSt σ) (e : Err) :
    (s.err = some e →
      (∀ n, iterRunN f lookup n s = s) ∧
      (iterNext f lookup s).2 = (none, none) ∧
      (∀ n, iterError (iterRunN f lookup n s) = some e)) ∧
    (s.err = none → s.keyCache = [] → ∀ p2, f s.prodSt = (p2, .error e) →
      (iterNext f lookup s).1.err = some e ∧
        (iterNext f lookup s).2 = (none, none)) ∧
    (s.err = none → ∀ k ks, s.keyCache = k :: ks → lookup k = .error e →
      (iterNext f lookup s).1.err = some e ∧
        (iterNext f lookup s).2 = (none, none)) := by
  obtain ⟨cache, p, er⟩ := s
  refine ⟨fun herr => ?_, fun herr hcache p2 hf => ?_, fun herr k ks hcache hl => ?_⟩
  · subst herr
    have hstep : iterNext f lookup ⟨cache, p, some e⟩ = (⟨cache, p, some e⟩, (none, none)) := by
      simp [iterNext]
    have hrun : ∀ n, iterRunN f lookup n ⟨cache, p, some e⟩ = ⟨cache, p, some e⟩ := by
      intro n
      induction n with
      | zero => rfl
      | succ n ihn =>
        show iterRunN f lookup n (iterNext f lookup ⟨cache, p, some e⟩).1 = _
        rw [hstep]
        exact ihn
    exact ⟨hrun, by rw [hstep], fun n => by rw [hrun n]; rfl⟩
  · subst herr
    subst hcache
    simp [iterNext, hf]
  · subst herr
    subst hcache
    simp [iterNext, hl]

theorem C8_sticky_error_witness :
    iterRunN (fun _ : Unit => ((), Except.error (Err.storeErr 1)))
        (fun _ => Except.ok []) 3 ⟨[], (), some (Err.codecErr 2)⟩ =
      ⟨[], (), some (Err.codecErr 2)⟩ ∧
      (iterNext (fun _ : Unit => ((), Except.error (Err.storeErr 1)))
          (fun _ => Except.ok []) ⟨[], (), none⟩).1.err = some (Err.storeErr 1) :=
  ⟨((C8_sticky_error (fun _ : Unit => ((), Except.error (Err.storeErr 1)))
      (fun _ => Except.ok []) ⟨[], (), some (Err.codecErr 2)⟩ (Err.codecErr 2)).1 rfl).1 3,
   ((C8_sticky_error (fun _ : Unit => ((), Except.error (Err.storeErr 1)))
      (fun _ => Except.ok []) ⟨[], (), none⟩ (Err.storeErr 1)).2.1 rfl rfl () rfl).1⟩

theorem nextKeysFull_bound (pfx : ByteStr) :
    ∀ (it : List (ByteStr × ByteStr)) (acc : List ByteStr),
      acc.length ≤ iteratorKeyMinCacheSize →
      ∀ it2 l, nextKeysFull pfx it acc = (it2, .ok l) →
        l.length ≤ iteratorKeyMinCacheSize := by
  intro it
  induction it with
  | nil =>
    intro acc hacc it2 l h
    unfold nextKeysFull at h
    by_cases hlen : acc.length < iteratorKeyMinCacheSize
    · rw [if_pos hlen] at h
      simp only [Prod.mk.injEq, Except.ok.injEq] at h
      rcases h with ⟨-, rfl⟩
      exact hacc
    · rw [if_neg hlen] at h
      simp only [Prod.mk.injEq, Except.ok.injEq] at h
      rcases h with ⟨-, rfl⟩
      exact hacc
  | cons kv rest ih =>
    obtain ⟨k, v⟩ := kv
    intro acc hacc it2 l h
    unfold nextKeysFull at h
    by_cases hlen : acc.length < iteratorKeyMinCacheSize
    · rw [if_pos hlen] at h
      dsimp only at h
      by_cases hpf : pfx.isPrefixOf k = true
      · rw [if_pos hpf] at h
        refine ih (acc ++ [k]) ?_ it2 l h
        simpa using hlen
      · rw [if_neg hpf] at h
        simp only [Prod.mk.injEq, Except.ok.injEq] at h
        rcases h with ⟨-, rfl⟩
        exact hacc
    · rw [if_neg hlen] at h
      simp only [Prod.mk.injEq, Except.ok.injEq] at h
      rcases h with ⟨-, rfl⟩
      exact hacc

theorem nextKeysPrimary_bound {α : Type} (dv : ByteStr → Except Err α)
    (mc : ByteStr → α → Except Err Bool) (pfx : ByteStr) :
    ∀ (it : List (ByteStr × ByteStr)) (acc : List ByteStr),
      acc.length ≤ iteratorKeyMinCacheSize →
      ∀ it2 l, nextKeysPrimary dv mc pfx it acc = (it2, .ok l) →
        l.length ≤ iteratorKeyMinCacheSize := by
  intro it
  induction it with
  | nil =>
    intro acc hacc it2 l h
    unfold nextKeysPrimary at h
    by_cases hlen : acc.length < iteratorKeyMinCacheSize
    · rw [if_pos hlen] at h
      simp only [Prod.mk.injEq, Except.ok.injEq] at h
      rcases h with ⟨-, rfl⟩
      exact hacc
    · rw [if_neg hlen] at h
      simp only [Prod.mk.injEq, Except.ok.injEq] at h
      rcases h with ⟨-, rfl⟩
      exact hacc
  | cons kv rest ih =>
    obtain ⟨k, v⟩ := kv
    intro acc hacc it2 l h
    unfold nextKeysPrimary at h
    by_cases hlen : acc.length < iteratorKeyMinCacheSize
    · rw [if_pos hlen] at h
      dsimp only at h
      by_cases hpf : pfx.isPrefixOf k = true
      · rw [if_pos hpf] at h
        cases hdv : dv v with
        | error e =>
          simp only [hdv] at h
          simp at h
        | ok val =>
          simp only [hdv] at h
          cases hmc : mc k val with
          | error e =>
            simp only [hmc] at h
            simp at h
          | ok b =>
            simp only [hmc] at h
            refine ih _ ?_ it2 l h
            cases b with
            | false => simpa using Nat.le_of_lt hlen
            | true => simpa using hlen
      · rw [if_neg hpf] at h
        simp only [Prod.mk.injEq, Except.ok.injEq] at h
        rcases h with ⟨-, rfl⟩
        exact hacc
    · rw [if_neg hlen] at h
      simp only [Prod.mk.injEq, Except.ok.injEq] at h
      rcases h with ⟨-, rfl⟩
      exact hacc

theorem nextKeysIndexed_bound (mc : ByteStr → Except Err Bool)
    (dec : ByteStr → Except Err keyList) (pfx : ByteStr) (m : Nat) :
    ∀ (it : List (ByteStr × ByteStr)) (acc : List ByteStr),
      (∀ p ∈ it, ∀ kl, dec p.2 = Except.ok kl → kl.length ≤ m) →
      acc.length < iteratorKeyMinCacheSize + m →
      ∀ it2 l, nextKeysIndexed mc dec pfx it acc = (it2, .ok l) →
        l.length < iteratorKeyMinCacheSize + m := by
  intro it
  induction it with
  | nil =>
    intro acc _ hacc it2 l h
    unfold nextKeysIndexed at h
    by_cases hlen : acc.length < iteratorKeyMinCacheSize
    · rw [if_pos hlen] at h
      simp only [Prod.mk.injEq, Except.ok.injEq] at h
      rcases h with ⟨-, rfl⟩
      exact hacc
    · rw [if_neg hlen] at h
      simp only [Prod.mk.injEq, Except.ok.injEq] at h
      rcases h with ⟨-, rfl⟩
      exact hacc
  | cons kv rest ih =>
    obtain ⟨k, v⟩ := kv
    intro acc hm hacc it2 l h
    have hmrest : ∀ p ∈ rest, ∀ kl, dec p.2 = Except.ok kl → kl.length ≤ m :=
      fun p hp => hm p (List.mem_cons.mpr (Or.inr hp))
    unfold nextKeysIndexed at h
    by_cases hlen : acc.length < iteratorKeyMinCacheSize
    · rw [if_pos hlen] at h
      dsimp only at h
      by_cases hpf : pfx.isPrefixOf k = true
      · rw [if_pos hpf] at h
        cases hmc : mc (k.drop pfx.length) with
        | error e =>
          simp only [hmc] at h
          simp at h
        | ok b =>
          simp only [hmc] at h
          cases b with
          | false =>
            simp only [Bool.false_eq_true, if_neg] at h
            exact ih acc hmrest hacc it2 l h
          | true =>
            simp only [if_pos] at h
            cases hdec : dec v with
            | error e =>
              simp only [hdec] at h
              exact ih acc hmrest hacc it2 l h
            | ok keys =>
              simp only [hdec] at h
              refine ih (acc ++ keys) hmrest ?_ it2 l h
              have hkeys : keys.length ≤ m :=
                hm (k, v) (List.mem_cons_self _ _) keys hdec
              simp only [List.length_append]
              simp only [iteratorKeyMinCacheSize] at hlen ⊢
              omega
      · rw [if_neg hpf] at h
        simp only [Prod.mk.injEq, Except.ok.injEq] at h
        rcases h with ⟨-, rfl⟩
        exact hacc
    · rw [if_neg hlen] at h
      simp only [Prod.mk.injEq, Except.ok.injEq] at h
      rcases h with ⟨-, rfl⟩
      exact hacc

/-- C4 counterexample: in the indexed-lookup strategy, one index entry whose
KeyList holds 101 keys makes a single nextKeys invocation return a batch of
101 > iteratorKeyMinCacheSize = 100 candidate keys, with the prefix not
exhausted as a precondition and no error. -/
theorem C4_counterexample :
    (nextKeysIndexed (fun _ => Except.ok true) (fun _ => Except.ok bigKeyList)
        [] [([0], [0])] []).2 = Except.ok bigKeyList ∧
      iteratorKeyMinCacheSize < bigKeyList.length :=
  ⟨rfl, by decide⟩

/-- C4 amended: the primary-key scan and full-type scan producers do return
at most iteratorKeyMinCacheSize (=100) keys per invocation (or fewer when the
prefix is exhausted, or an error); the indexed-lookup producer appends whole
KeyLists and checks the threshold only between entries, so its batch is
bounded by 100+m-1 where m bounds the decoded KeyList sizes — and can exceed
100 when an entry fans out (see the counterexample). -/
theorem C4_batch_bounds {α : Type} (dv : ByteStr → Except Err α)
    (mc : ByteStr → α → Except Err Bool) (mcI : ByteStr → Except Err Bool)
    (dec : ByteStr → Except Err keyList) (pfx : ByteStr)
    (it : List (ByteStr × ByteStr)) (m : Nat) :
    (∀ it2 l, nextKeysPrimary dv mc pfx it [] = (it2, .ok l) →
      l.length ≤ iteratorKeyMinCacheSize) ∧
    (∀ it2 l, nextKeysFull pfx it [] = (it2, .ok l) →
      l.length ≤ iteratorKeyMinCacheSize) ∧
    ((∀ p ∈ it, ∀ kl, dec p.2 = Except.ok kl → kl.length ≤ m) →
      ∀ it2 l, nextKeysIndexed mcI dec pfx it [] = (it2, .ok l) →
        l.length < iteratorKeyMinCacheSize + m) :=
  ⟨nextKeysPrimary_bound dv mc pfx it [] (by simp),
   nextKeysFull_bound pfx it [] (by simp),
   fun hm => nextKeysIndexed_bound mcI dec pfx m it [] hm (by simp [iteratorKeyMinCacheSize])⟩

theorem C4_batch_bounds_witness :
    ([[1]] : List ByteStr).length ≤ iteratorKeyMinCacheSize ∧
      ([] : List ByteStr).length < iteratorKeyMinCacheSize + 0 :=
  ⟨(C4_batch_bounds (fun _ => Except.ok (0 : Nat)) (fun _ _ => Except.ok true)
      (fun _ => Except.ok true) (fun _ => Except.ok []) [] [([1], [2])] 0).1 [] [[1]] rfl,
   (C4_batch_bounds (fun _ => Except.ok (0 : Nat)) (fun _ _ => Except.ok true)
      (fun _ => Except.ok true) (fun _ => Except.ok []) [] [([1], [2])] 0).2.2
     (by intro p hp kl hkl; injection hkl with h2; subst h2; simp) [] [] rfl⟩

/-- C7: newIterator picks exactly one of the three strategies, in priority
order: primary-key scan iff the designated field is the Key sentinel and the
bad-index flag is clear; otherwise full-type scan iff the index is bad or
some criterion on the designated field needs a match function; indexed
lookup otherwise. In particular a match-function criterion on the designated
field never yields the indexed-lookup strategy, however usable the index. -/
theorem C7_strategy_selection (store : List (ByteStr × ByteStr)) (typeName : String)
    (q : Query) :
    (newIteratorStrategy store typeName q = .primaryKey ↔
      (q.index = Key ∧ queryBadIndex store typeName q = false)) ∧
    (newIteratorStrategy store typeName q = .fullScan ↔
      (¬(q.index = Key ∧ queryBadIndex store typeName q = false) ∧
        (queryBadIndex store typeName q = true ∨
          hasMatchFunc (q.fieldCriteria q.index) = true))) ∧
    (newIteratorStrategy store typeName q = .indexedLookup ↔
      (¬(q.index = Key ∧ queryBadIndex store typeName q = false) ∧
        queryBadIndex store typeName q = false ∧
        hasMatchFunc (q.fieldCriteria q.index) = false)) ∧
    (hasMatchFunc (q.fieldCriteria q.index) = true →
      newIteratorStrategy store typeName q ≠ .indexedLookup) := by
  unfold newIteratorStrategy
  cases hbad : queryBadIndex store typeName q <;>
    cases hmf : hasMatchFunc (q.fieldCriteria q.index) <;>
      by_cases hk : q.index = Key <;>
        simp [hk, hbad, hmf]

theorem C7_strategy_selection_witness :
    newIteratorStrategy [] "T"
        { index := "f", badIndex := false, fieldCriteria := fun _ => [⟨true⟩] } ≠
      Strategy.indexedLookup :=
  (C7_strategy_selection [] "T"
    { index := "f", badIndex := false, fieldCriteria := fun _ => [⟨true⟩] }).2.2.2 rfl

theorem isPrefixOf_not_lt : ∀ (p k : ByteStr), p.isPrefixOf k = true →
    bytesCompare k p ≠ .lt := by
  intro p
  induction p with
  | nil =>
    intro k _
    cases k <;> simp [bytesCompare]
  | cons a p2 ih =>
    intro k hpf
    cases k with
    | nil => simp [List.isPrefixOf] at hpf
    | cons b k2 =>
      simp only [List.isPrefixOf, Bool.and_eq_true, beq_iff_eq] at hpf
      obtain ⟨hab, hpf2⟩ := hpf
      subst hab
      intro hlt
      simp only [bytesCompare, Nat.lt_irrefl, if_false] at hlt
      exact ih k2 hpf2 hlt

theorem prefix_between : ∀ (p h k : ByteStr), ¬(bytesCompare h p = .lt) →
    (h = k ∨ bytesCompare h k = .lt) → p.isPrefixOf k = true →
    p.isPrefixOf h = true := by
  intro p
  induction p with
  | nil => intro h k _ _ _; simp [List.isPrefixOf]
  | cons a p2 ih =>
    intro h k hge hle hpf
    cases k with
    | nil => simp [List.isPrefixOf] at hpf
    | cons b k2 =>
      simp only [List.isPrefixOf, Bool.and_eq_true, beq_iff_eq] at hpf
      obtain ⟨hab, hpf2⟩ := hpf
      subst hab
      rcases hle with rfl | hlt
      · simp [List.isPrefixOf, hpf2]
      · cases h with
        | nil => exact absurd rfl hge
        | cons c h2 =>
          rcases Nat.lt_trichotomy c a with hca | hca | hca
          · refine absurd ?_ hge
            simp [bytesCompare, hca]
          · subst hca
            have hge2 : ¬(bytesCompare h2 p2 = .lt) := by
              intro hc
              apply hge
              simp [bytesCompare, Nat.lt_irrefl, hc]
            have hlt2 : bytesCompare h2 k2 = .lt := by
              simpa [bytesCompare, Nat.lt_irrefl] using hlt
            have hres := ih h2 k2 hge2 (Or.inr hlt2) hpf2
            simp [List.isPrefixOf, hres]
          · rw [show bytesCompare (c :: h2) (a :: k2) = .gt by
              simp only [bytesCompare]
              rw [if_neg (Nat.lt_asymm hca), if_pos hca]] at hlt
            simp at hlt

theorem seek_valid_iff : ∀ (store : List (ByteStr × ByteStr)) (p : ByteStr),
    List.Pairwise (fun a b => lexLt a.1 b.1) store →
    (validForPfx (seek store p) p = true ↔
      ∃ kv ∈ store, p.isPrefixOf kv.1 = true) := by
  intro store
  induction store with
  | nil => intro p _; simp [seek, validForPfx, List.dropWhile]
  | cons kv store2 ih =>
    intro p hs
    obtain ⟨k, v⟩ := kv
    rcases List.pairwise_cons.mp hs with ⟨hk, hs2⟩
    unfold seek
    rw [List.dropWhile_cons]
    by_cases hpred : bytesCompare k p = .lt
    · rw [if_pos (by simp [hpred])]
      have hiff := ih p hs2
      unfold seek at hiff
      rw [hiff]
      constructor
      · rintro ⟨x, hx, hpf⟩
        exact ⟨x, List.mem_cons.mpr (Or.inr hx), hpf⟩
      · rintro ⟨x, hx, hpf⟩
        rcases List.mem_cons.mp hx with rfl | hx2
        · exact absurd hpred (isPrefixOf_not_lt p k hpf)
        · exact ⟨x, hx2, hpf⟩
    · rw [if_neg (by simp [hpred])]
      simp only [validForPfx]
      constructor
      · intro h
        exact ⟨(k, v), List.mem_cons_self _ _, h⟩
      · rintro ⟨x, hx, hpf⟩
        rcases List.mem_cons.mp hx with rfl | hx2
        · exact hpf
        · exact prefix_between p k x.1 hpred (Or.inr (hk x hx2)) hpf

/-- C9: when no record lies under the type partition prefix, indexExists
returns true for any index name; when at least one record of the type
exists, it returns true iff at least one index entry lies under the index
prefix for that (typeName, indexName). -/
theorem C9_indexExists_spec (store : List (ByteStr × ByteStr))
    (typeName indexName : String)
    (hs : List.Pairwise (fun a b => lexLt a.1 b.1) store) :
    ((∀ kv ∈ store, (typePfx typeName).isPrefixOf kv.1 = false) →
      indexExists store typeName indexName = true) ∧
    ((∃ kv ∈ store, (typePfx typeName).isPrefixOf kv.1 = true) →
      (indexExists store typeName indexName = true ↔
        ∃ kv ∈ store, (indexKeyPrefix typeName indexName).isPrefixOf kv.1 = true)) := by
  constructor
  · intro hnone
    have hval : validForPfx (seek store (typePfx typeName)) (typePfx typeName) = false := by
      rw [← Bool.not_eq_true]
      intro hcontra
      rcases (seek_valid_iff store (typePfx typeName) hs).mp hcontra with ⟨kv, hkv, hpf⟩
      rw [hnone kv hkv] at hpf
      cases hpf
    simp [indexExists, hval]
  · intro hex
    have hval : validForPfx (seek store (typePfx typeName)) (typePfx typeName) = true :=
      (seek_valid_iff store (typePfx typeName) hs).mpr hex
    have hred : indexExists store typeName indexName =
        validForPfx (seek store (indexKeyPrefix typeName indexName))
          (indexKeyPrefix typeName indexName) := by
      simp [indexExists, hval]
    rw [hred]
    exact seek_valid_iff store (indexKeyPrefix typeName indexName) hs

theorem C9_indexExists_spec_witness :
    indexExists [(strBytes "_bhIndex:T:f" ++ [1], [2]), (strBytes "bh_T" ++ [1], [2])]
      "T" "f" = true :=
  ((C9_indexExists_spec
      [(strBytes "_bhIndex:T:f" ++ [1], [2]), (strBytes "bh_T" ++ [1], [2])]
      "T" "f" (by decide)).2 (by decide)).mpr (by decide)

end Badgerhold
